import Mathlib

/- Verification development for the sqlm migration engine.

   The definitions below are a shallow embedding of the Go sources
   `migration.go` and `parse.go`: the migration data model, the SHA-256
   checksum engine, dialect detection from the version banner, the SQL
   statement splitter and the `Apply` state machine.  The database is
   modelled explicitly: a `DBModel` carries the version banner returned by
   `SELECT version()`, the rows of the `migration_schema_history` table and
   an oracle deciding which migration statements execute successfully
   (history-table bookkeeping statements are modelled as succeeding).
   Wall-clock fields (`applied_at`, `execution_duration`) are modelled as
   the constant 0.  Go's map iteration over groups has unspecified order;
   it is modelled by an explicit `reorder` parameter, constrained to a
   permutation in the theorems. -/

namespace Sqlm

/-- Truncation to 32 bits, as used by all SHA-256 word operations. -/
def w32 (n : Nat) : Nat := n % 4294967296

/-- Rotate a 32-bit word right by `s` bits. -/
def rotr32 (x s : Nat) : Nat := w32 ((x >>> s) ||| (x <<< (32 - s)))

/-- SHA-256 choice function. -/
def ch32 (x y z : Nat) : Nat := (x &&& y) ^^^ ((x ^^^ 4294967295) &&& z)

/-- SHA-256 majority function. -/
def maj32 (x y z : Nat) : Nat := (x &&& y) ^^^ (x &&& z) ^^^ (y &&& z)

/-- SHA-256 big sigma 0. -/
def bigSigma0 (x : Nat) : Nat := rotr32 x 2 ^^^ rotr32 x 13 ^^^ rotr32 x 22

/-- SHA-256 big sigma 1. -/
def bigSigma1 (x : Nat) : Nat := rotr32 x 6 ^^^ rotr32 x 11 ^^^ rotr32 x 25

/-- SHA-256 small sigma 0. -/
def smallSigma0 (x : Nat) : Nat := rotr32 x 7 ^^^ rotr32 x 18 ^^^ (x >>> 3)

/-- SHA-256 small sigma 1. -/
def smallSigma1 (x : Nat) : Nat := rotr32 x 17 ^^^ rotr32 x 19 ^^^ (x >>> 10)

/-- The 64 SHA-256 round constants. -/
def sha256K : List Nat :=
  [1116352408, 1899447441, 3049323471, 3921009573,
   961987163, 1508970993, 2453635748, 2870763221,
   3624381080, 310598401, 607225278, 1426881987,
   1925078388, 2162078206, 2614888103, 3248222580,
   3835390401, 4022224774, 264347078, 604807628,
   770255983, 1249150122, 1555081692, 1996064986,
   2554220882, 2821834349, 2952996808, 3210313671,
   3336571891, 3584528711, 113926993, 338241895,
   666307205, 773529912, 1294757372, 1396182291,
   1695183700, 1986661051, 2177026350, 2456956037,
   2730485921, 2820302411, 3259730800, 3345764771,
   3516065817, 3600352804, 4094571909, 275423344,
   430227734, 506948616, 659060556, 883997877,
   958139571, 1322822218, 1537002063, 1747873779,
   1955562222, 2024104815, 2227730452, 2361852424,
   2428436474, 2756734187, 3204031479, 3329325298]

/-- The SHA-256 initial hash value. -/
def sha256H0 : List Nat :=
  [1779033703, 3144134277, 1013904242, 2773480762,
   1359893119, 2600822924, 528734635, 1541459225]

/-- Big-endian byte decomposition of a natural number into `k` bytes. -/
def natToBytesBE : Nat → Nat → List Nat
  | 0, _ => []
  | k + 1, n => natToBytesBE k (n >>> 8) ++ [n % 256]

/-- Group a byte list into big-endian 32-bit words. -/
def bytesToWords : List Nat → List Nat
  | a :: b :: c :: d :: rest => (((a * 256 + b) * 256 + c) * 256 + d) :: bytesToWords rest
  | _ => []

/-- SHA-256 message padding: append `0x80`, zeros up to 56 mod 64, and the
bit length as a 64-bit big-endian integer. -/
def padMessage (msg : List Nat) : List Nat :=
  let z := (119 - msg.length % 64) % 64
  msg ++ [128] ++ List.replicate z 0 ++ natToBytesBE 8 (msg.length * 8)

/-- Extend the 16-word message schedule to 64 words (`fuel` = 48). -/
def extendW : Nat → List Nat → List Nat
  | 0, ws => ws
  | f + 1, ws =>
    let i := ws.length
    let v := w32 (smallSigma1 (ws.getD (i - 2) 0) + ws.getD (i - 7) 0 +
                  smallSigma0 (ws.getD (i - 15) 0) + ws.getD (i - 16) 0)
    extendW f (ws ++ [v])

/-- One SHA-256 compression round on the eight-word working state. -/
def compressRound (st : List Nat) (ki wi : Nat) : List Nat :=
  match st with
  | [a, b, c, d, e, f, g, h] =>
    let t1 := w32 (h + bigSigma1 e + ch32 e f g + ki + wi)
    let t2 := w32 (bigSigma0 a + maj32 a b c)
    [w32 (t1 + t2), a, b, c, w32 (d + t1), e, f, g]
  | other => other

/-- Compress one 64-byte block into the running hash value. -/
def compressBlock (hs : List Nat) (block : List Nat) : List Nat :=
  let ws := extendW 48 (bytesToWords block)
  let st := (sha256K.zip ws).foldl (fun st p => compressRound st p.1 p.2) hs
  (hs.zip st).map (fun p => w32 (p.1 + p.2))

/-- Split a byte list into 64-byte chunks (`fuel` bounds the recursion). -/
def chunks64 : Nat → List Nat → List (List Nat)
  | 0, _ => []
  | _, [] => []
  | fuel + 1, l => l.take 64 :: chunks64 fuel (l.drop 64)

/-- SHA-256 digest of a byte list, as 32 bytes. -/
def sha256Bytes (msg : List Nat) : List Nat :=
  let padded := padMessage msg
  ((chunks64 padded.length padded).foldl compressBlock sha256H0).flatMap (natToBytesBE 4)

/-- Lowercase hexadecimal digit for a value below 16. -/
def hexDigitChar (n : Nat) : Char := if n < 10 then Char.ofNat (48 + n) else Char.ofNat (87 + n)

/-- Lowercase hexadecimal rendering of a byte list, mirroring Go
`hex.EncodeToString`. -/
def hexEncode (bs : List Nat) : String :=
  String.mk (bs.flatMap (fun b => [hexDigitChar (b / 16), hexDigitChar (b % 16)]))

/-- UTF-8 encoding of one character, as Go `[]byte(string)` produces. -/
def utf8Bytes (c : Char) : List Nat :=
  let n := c.toNat
  if n < 128 then [n]
  else if n < 2048 then [192 + n / 64, 128 + n % 64]
  else if n < 65536 then [224 + n / 4096, 128 + (n / 64) % 64, 128 + n % 64]
  else [240 + n / 262144, 128 + (n / 4096) % 64, 128 + (n / 64) % 64, 128 + n % 64]

/-- UTF-8 bytes of a string. -/
def strBytes (s : String) : List Nat := s.data.flatMap utf8Bytes

/-- Hex-encoded SHA-256 of a string, mirroring Go
`hex.EncodeToString(sha256.Sum256([]byte(s))[:])`. -/
def sha256hex (s : String) : String := hexEncode (sha256Bytes (strBytes s))

/-- One migration unit, mirroring the Go `Migration` struct
(`migration.go`): group, version (int64, modelled as `Int`), ordered
statements and source script name. -/
structure Migration where
  group : String
  version : Int
  statements : List String
  scriptName : String
deriving DecidableEq, Repr

/-- The checksum engine, mirroring Go `hash` (`migration.go`): SHA-256 over
the statements joined with a single `;`. -/
def hash (m : Migration) : String := sha256hex (String.intercalate ";" m.statements)

/-- One row of the `migration_schema_history` table, mirroring the Go
`HistoryEntry` struct.  `entryType` is the `Type` column (always `sql`),
`status` one of `success`, `failed`, `pending`, `executing`.  The
timestamp and duration columns are modelled as the constant 0. -/
structure HistoryEntry where
  group : String
  version : Int
  script : String
  entryType : String
  checksum : String
  appliedAt : Nat
  executionDuration : Nat
  status : String
  log : String
deriving DecidableEq, Repr

/-- The supported dialects, mirroring the Go `DBType` constants. -/
inductive DBType where
  | postgresql
  | mysql
deriving DecidableEq, Repr

/-- Does the character list `needle` occur at the start of `hay`? -/
def beginsWith [DecidableEq α] : List α → List α → Bool
  | [], _ => true
  | _ :: _, [] => false
  | a :: as, b :: bs => if a = b then beginsWith as bs else false

/-- Does the character list `needle` occur contiguously inside `hay`? -/
def containsSeq [DecidableEq α] (needle : List α) : List α → Bool
  | [] => needle.isEmpty
  | hd :: tl => if beginsWith needle (hd :: tl) then true else containsSeq needle tl

/-- Substring test, mirroring Go `strings.Contains(hay, needle)`. -/
def strContains (hay needle : String) : Bool := containsSeq needle.data hay.data

/-- ASCII lowercasing of a string, mirroring Go `strings.ToLower` on the
ASCII subset relevant to dialect detection. -/
def strToLower (s : String) : String := String.mk (s.data.map Char.toLower)

/-- Dialect detection from the version banner, mirroring the Go `version`
function (`migration.go`): lowercase the banner, then test for the
substrings `postgresql`, `mariadb`, `mysql` in that order; `none` models
the "unknown database type" error. -/
def version (banner : String) : Option DBType :=
  let str := strToLower banner
  if strContains str "postgresql" then some .postgresql
  else if strContains str "mariadb" then some .mysql
  else if strContains str "mysql" then some .mysql
  else none

/-- The modelled database: version banner, current rows of the history
table, and an oracle giving the error message (if any) produced by
executing one migration statement. -/
structure DBModel where
  versionBanner : String
  history : List HistoryEntry
  execStmt : String → Option String

/-- The errors `Apply` can return, one constructor per `return fmt.Errorf`
site in the Go source. -/
inductive ApplyError where
  | unknownDatabaseType (banner : String)
  | dirtyHistory (e : HistoryEntry)
  | modifiedMigration (e : HistoryEntry) (m : Migration)
  | invalidVersion (m : Migration)
  | executionFailed (group : String) (version : Int) (msg : String)
deriving DecidableEq, Repr

/-- Result of one `Apply` call: the returned error (if any), the final
history table, the migrations for which an `executing` row was inserted
(in insertion order), and the migration statements issued to the
database (in execution order). -/
structure ApplyResult where
  err : Option ApplyError
  history : List HistoryEntry
  started : List Migration
  executed : List String
deriving Repr

/-- Does history entry `e` record the identity (group, version) of
migration `m`?  Mirrors the matching test in the grouping loop of `Apply`. -/
def keyMatches (m : Migration) (e : HistoryEntry) : Bool :=
  m.group == e.group && m.version == e.version

/-- Append migration `m` to its group's candidate list, mirroring the Go
`groups[migration.Group] = append(...)` on a map modelled as an
association list in first-insertion order. -/
def insertGroup : List (String × List Migration) → Migration → List (String × List Migration)
  | [], m => [(m.group, [m])]
  | (k, l) :: rest, m =>
    if k = m.group then (k, l ++ [m]) :: rest else (k, l) :: insertGroup rest m

/-- The grouping loop of `Apply` (`migration.go`): for each supplied
migration scan the history for a matching (group, version); a checksum
mismatch aborts with the "already applied migration has been modified"
error, a match skips the migration as already applied, no match adds it
to its group's pending candidates. -/
def buildGroups (entries : List HistoryEntry) :
    List Migration → List (String × List Migration) → Except ApplyError (List (String × List Migration))
  | [], gs => .ok gs
  | m :: rest, gs =>
    match entries.find? (keyMatches m) with
    | some e => if hash m != e.checksum then .error (.modifiedMigration e m) else buildGroups entries rest gs
    | none => buildGroups entries rest (insertGroup gs m)

/-- Candidate ordering used by `sort.Slice` in `Apply`. -/
def migLe (a b : Migration) : Prop := a.version ≤ b.version

instance : DecidableRel migLe := fun a b => Int.decLe a.version b.version

instance : IsTotal Migration migLe := ⟨fun a b => Int.le_total a.version b.version⟩

instance : IsTrans Migration migLe := ⟨fun _ _ _ hab hbc => Int.le_trans hab hbc⟩

/-- Sort one group's candidates by ascending version, modelling the
`sort.Slice` call in `Apply`. -/
def sortGroup (p : String × List Migration) : String × List Migration :=
  (p.1, List.insertionSort migLe p.2)

/-- The inner uniqueness loop of `Apply`, faithfully including that
`strictMonotonicVersion` is initialised to -1 but never advanced inside
the loop: only candidates with `version ≤ -1` are ever reported. -/
def checkMonotonic (strictMonotonicVersion : Int) : List Migration → Option Migration
  | [] => none
  | m :: rest =>
    if m.version ≤ strictMonotonicVersion then some m
    else checkMonotonic strictMonotonicVersion rest

/-- The per-group uniqueness check of `Apply`, returning the offending
migration of the "version must be >=0 and unique" error, if any. -/
def checkGroups : List (String × List Migration) → Option Migration
  | [] => none
  | (_, l) :: rest =>
    match checkMonotonic (-1) l with
    | some m => some m
    | none => checkGroups rest

/-- Run a migration's statements in order, mirroring the Go `execute`:
stop at the first failing statement, wrapping its oracle error message.
Returns the statements issued to the database and the error, if any. -/
def execute (exec : String → Option String) : List String → List String × Option String
  | [] => ([], none)
  | s :: rest =>
    match exec s with
    | some msg => ([s], some ("failed to execute statement " ++ s ++ ": " ++ msg))
    | none =>
      let r := execute exec rest
      (s :: r.1, r.2)

/-- The history row inserted before a migration runs: status `executing`,
freshly computed checksum, empty log. -/
def executingEntry (m : Migration) : HistoryEntry :=
  ⟨m.group, m.version, m.scriptName, "sql", hash m, 0, 0, "executing", ""⟩

/-- Row update as performed by the SQL `UPDATE ... WHERE group = ... AND
version = ...`: every row whose key matches `u` takes the non-key
columns of `u`. -/
def updateEntry (u e : HistoryEntry) : HistoryEntry :=
  if e.group == u.group && e.version == u.version then
    { e with script := u.script, entryType := u.entryType, checksum := u.checksum,
             appliedAt := u.appliedAt, executionDuration := u.executionDuration,
             status := u.status, log := u.log }
  else e

/-- Apply one `update` call to the whole history table. -/
def updateHistory (hist : List HistoryEntry) (u : HistoryEntry) : List HistoryEntry :=
  hist.map (updateEntry u)

/-- The execution loop of `Apply` over the flattened pending candidates:
insert an `executing` row, run the statements, then update the row to
`success`, or to `failed` (with the error text as log) and abort. -/
def runPending (exec : String → Option String) :
    List HistoryEntry → List Migration → List String → List Migration → ApplyResult
  | hist, started, executed, [] => ⟨none, hist, started, executed⟩
  | hist, started, executed, m :: rest =>
    let e := executingEntry m
    let hist1 := hist ++ [e]
    match execute exec m.statements with
    | (done, some msg) =>
      ⟨some (.executionFailed m.group m.version msg),
       updateHistory hist1 { e with status := "failed", log := msg },
       started ++ [m], executed ++ done⟩
    | (done, none) =>
      runPending exec (updateHistory hist1 { e with status := "success" })
        (started ++ [m]) (executed ++ done) rest

/-- The `Apply` entry point (`migration.go`): detect the dialect, ensure
the history table (modelled as always succeeding), load the history,
refuse dirty (non-`success`) rows, partition the supplied migrations
against the history, sort and uniqueness-check each group, then execute
the pending candidates group by group.  `reorder` models the unspecified
iteration order of the Go map of groups. -/
def Apply (db : DBModel)
    (reorder : List (String × List Migration) → List (String × List Migration))
    (migrations : List Migration) : ApplyResult :=
  match version db.versionBanner with
  | none => ⟨some (.unknownDatabaseType db.versionBanner), db.history, [], []⟩
  | some _ =>
    let entries := db.history
    match entries.find? (fun e => e.status != "success") with
    | some e => ⟨some (.dirtyHistory e), entries, [], []⟩
    | none =>
      match buildGroups entries migrations [] with
      | .error er => ⟨some er, entries, [], []⟩
      | .ok gs =>
        let ordered := reorder (gs.map sortGroup)
        match checkGroups ordered with
        | some m => ⟨some (.invalidVersion m), entries, [], []⟩
        | none => runPending db.execStmt entries [] [] (ordered.map Prod.snd).flatten

/-- The history row a fully applied migration ends with. -/
def successRowOf (m : Migration) : HistoryEntry :=
  ⟨m.group, m.version, m.scriptName, "sql", hash m, 0, 0, "success", ""⟩

/-- The history row a failed migration ends with. -/
def failedRowOf (m : Migration) (msg : String) : HistoryEntry :=
  ⟨m.group, m.version, m.scriptName, "sql", hash m, 0, 0, "failed", msg⟩

/-- The pending candidates of group `g`: supplied migrations of that group
with no matching history row. -/
def pendingOf (entries : List HistoryEntry) (ms : List Migration) (g : String) : List Migration :=
  ms.filter (fun m => m.group == g && (entries.find? (keyMatches m)).isNone)

/-- Distinct migration identities, as the (group, version) primary key
requires. -/
def distinctKeys (a b : Migration) : Prop := ¬(a.group = b.group ∧ a.version = b.version)

/-- Go `unicode.IsSpace`, used by `strings.TrimSpace`: the Unicode
white-space code points. -/
def goIsSpace (c : Char) : Bool :=
  [9, 10, 11, 12, 13, 32, 133, 160, 5760, 8192, 8193, 8194, 8195, 8196, 8197,
   8198, 8199, 8200, 8201, 8202, 8232, 8233, 8239, 8287, 12288].contains c.toNat

/-- Go `strings.TrimSpace` on a character list: drop white space from both
ends. -/
def trimSpaceChars (cs : List Char) : List Char :=
  ((cs.dropWhile goIsSpace).reverse.dropWhile goIsSpace).reverse

/-- State of the character scan in `parseStatementsFromString`
(`parse.go`): flushed statements, the current buffer, and the last rune
written (Go zero value `0` initially; not reset on flush, as in the
source). -/
structure ScanState where
  stmts : List (List Char)
  buf : List Char
  lastRune : Char
deriving Repr

/-- One step of the scan loop in `parseStatementsFromString`: a `;`
flushes the trimmed buffer (dropped if empty); otherwise carriage
returns, newlines and tabs fold to a space, a space following a space is
skipped, and the character is appended to the buffer. -/
def scanStep (st : ScanState) (r : Char) : ScanState :=
  if r = ';' then
    let tmp := trimSpaceChars st.buf
    if tmp.length > 0 then ⟨st.stmts ++ [tmp], [], st.lastRune⟩
    else ⟨st.stmts, [], st.lastRune⟩
  else
    let r1 := if r = '\r' ∨ r = '\n' ∨ r = '\t' then ' ' else r
    if st.lastRune = ' ' ∧ r1 = ' ' then st
    else ⟨st.stmts, st.buf ++ [r1], r1⟩

/-- Run the scan loop over a character list from the initial state. -/
def scanChars (cs : List Char) : ScanState := cs.foldl scanStep ⟨[], [], Char.ofNat 0⟩

/-- The statement splitter on comment-stripped text (`parse.go`,
`parseStatementsFromString` after the regex pass): scan the characters,
and fail with the "non terminated sql statement" error when the final
buffer still holds non-white-space text. -/
def parseStatementsFromChars (cs : List Char) : Except String (List String) :=
  let st := scanChars cs
  if (trimSpaceChars st.buf).length > 0 then .error "non terminated sql statement"
  else .ok (st.stmts.map (fun l => String.mk l))

/-- The full splitter, with the comment-stripping regex pass
(`commentsRegex.ReplaceAllString`, whose definition lies outside the
sources) abstracted as an arbitrary preprocessing function `strip`. -/
def parseStatementsFromString (strip : String → String) (str : String) : Except String (List String) :=
  parseStatementsFromChars (strip str).data

/-- The characters after the last `;` of a character list (the whole list
when no `;` occurs). -/
def afterLastSemi (cs : List Char) : List Char :=
  (cs.reverse.takeWhile (fun c => c != ';')).reverse

/-- Result of Go `extractVersion` (`parse.go`): either the returned
`int64`, or a panic carrying the digit string (Go
`panic(sb.String())` when `strconv.ParseInt` fails). -/
inductive ExtractResult where
  | value (v : Int)
  | panicked (digits : String)
deriving DecidableEq, Repr

/-- ASCII digit test, mirroring `r >= '0' && r <= '9'`. -/
def isDigitChar (c : Char) : Bool := 48 ≤ c.toNat && c.toNat ≤ 57

/-- All digit characters of a filename, in order. -/
def digitsOf (name : String) : List Char := name.data.filter isDigitChar

/-- Decimal value denoted by a digit string. -/
def digitsToNat (ds : List Char) : Nat := ds.foldl (fun a c => 10 * a + (c.toNat - 48)) 0

/-- The largest `int64`. -/
def int64Max : Nat := 9223372036854775807

/-- Go `extractVersion` (`parse.go`): concatenate all digit characters of
the filename; return -1 if there are none; otherwise
`strconv.ParseInt(digits, 10, 64)`, which yields the denoted value when
it fits an `int64` and an error — turned into a panic — otherwise. -/
def extractVersion (name : String) : ExtractResult :=
  let ds := digitsOf name
  if ds.isEmpty then .value (-1)
  else if digitsToNat ds ≤ int64Max then .value (digitsToNat ds)
  else .panicked (String.mk ds)

/-- A database model whose migration statements all succeed, with a
PostgreSQL banner and empty history. -/
def freshPostgresDB : DBModel := ⟨"PostgreSQL 12.2 on x86_64", [], fun _ => none⟩

/-- Two migrations in group g with the equal version 3, the configuration
the uniqueness check is supposed to reject. -/
def dupVersionMigrations : List Migration :=
  [⟨"g", 3, ["s1"], "a.sql"⟩, ⟨"g", 3, ["s2"], "b.sql"⟩]

/-- Migration whose single statement contains a literal `;`. -/
def splitMigA : Migration := ⟨"g", 1, ["a;b"], "v1.sql"⟩

/-- Migration with the same text split into two statements. -/
def splitMigB : Migration := ⟨"g", 1, ["a", "b"], "v1.sql"⟩

/-- A database with a MySQL banner whose history holds one failed row. -/
def dirtyDB : DBModel :=
  ⟨"mysql 8", [⟨"g", 1, "s", "sql", "abc", 0, 0, "failed", "boom"⟩], fun _ => none⟩

/-- All pending candidates: supplied migrations with no matching history
row, in supplied order. -/
def pendingAll (entries : List HistoryEntry) (ms : List Migration) : List Migration :=
  ms.filter (fun m => (entries.find? (keyMatches m)).isNone)

/-- Distinct history row identities, as the (group, version) primary key
of the history table requires. -/
def distinctEntryKeys (a b : HistoryEntry) : Prop :=
  ¬(a.group = b.group ∧ a.version = b.version)

instance : DecidableRel distinctKeys := fun a b =>
  show Decidable ¬(a.group = b.group ∧ a.version = b.version) from inferInstance

instance : DecidableRel distinctEntryKeys := fun a b =>
  show Decidable ¬(a.group = b.group ∧ a.version = b.version) from inferInstance

/-- The candidate list stored under key `g` in a group association list
(empty when the key is absent). -/
def groupGetList (l : List (String × List Migration)) (g : String) : List Migration :=
  match l.find? (fun p => p.1 == g) with
  | some p => p.2
  | none => []

/-- Is an `Apply` outcome the modified-migration (drift) error? -/
def isDriftError : Option ApplyError → Bool
  | some (.modifiedMigration _ _) => true
  | _ => false

/-- A migration whose recorded checksum will be made to disagree. -/
def driftMig : Migration := ⟨"g", 1, ["create table t"], "v1.sql"⟩

/-- A successful history row for `driftMig`'s identity whose stored
checksum differs from the recomputed one. -/
def driftEntry : HistoryEntry := ⟨"g", 1, "v1.sql", "sql", hash driftMig ++ "x", 0, 0, "success", ""⟩

/-- An unrelated failed history row in another group. -/
def otherFailedEntry : HistoryEntry := ⟨"h", 2, "v2.sql", "sql", "c2", 0, 0, "failed", "boom"⟩

/-- History holding both the drifted success row and a failed row. -/
def driftDirtyDB : DBModel := ⟨"PostgreSQL 12.2 on x86_64", [driftEntry, otherFailedEntry], fun _ => none⟩

/-- History holding only the drifted success row. -/
def driftCleanDB : DBModel := ⟨"PostgreSQL 12.2 on x86_64", [driftEntry], fun _ => none⟩

/-- A database on which exactly the statement `bad` fails. -/
def failSecondDB : DBModel :=
  ⟨"PostgreSQL 12.2 on x86_64", [], fun s => if s == "bad" then some "syntax error" else none⟩

/-- One valid migration followed by one whose statement fails. -/
def twoStepMigrations : List Migration :=
  [⟨"g", 1, ["ok"], "a.sql"⟩, ⟨"g", 2, ["bad"], "b.sql"⟩]

/-- Versions supplied out of order within one group. -/
def outOfOrderMigrations : List Migration :=
  [⟨"g", 3, ["s3"], "c.sql"⟩, ⟨"g", 1, ["s1"], "a.sql"⟩]

/-- The database as a following call sees it: same banner and oracle,
history as left behind by a previous `Apply`. -/
def afterDB (db : DBModel)
    (reorder : List (String × List Migration) → List (String × List Migration))
    (ms : List Migration) : DBModel :=
  ⟨db.versionBanner, (Apply db reorder ms).history, db.execStmt⟩

/-- The database state after applying the duplicate-version pair. -/
def dupAppliedDB : DBModel := afterDB freshPostgresDB id dupVersionMigrations

/-- A database on which exactly the statement `s2` fails. -/
def dupFailDB : DBModel :=
  ⟨"PostgreSQL 12.2 on x86_64", [], fun s => if s == "s2" then some "syntax error" else none⟩

/-- C1: the Go uniqueness check initialises `strictMonotonicVersion` to -1
and never advances it, so two pending candidates of group g sharing
version 3 pass the check: `Apply` executes both and returns nil instead
of a configuration error. -/
theorem apply_duplicate_versions_not_rejected :
    (Apply freshPostgresDB id dupVersionMigrations).err = none ∧
    (Apply freshPostgresDB id dupVersionMigrations).started.map (fun m => m.version) = [3, 3] ∧
    (Apply freshPostgresDB id dupVersionMigrations).executed = ["s1", "s2"] := by
  refine ⟨?_, ?_, ?_⟩ <;> decide

/-- C2 (counterexample): the checksum joins statements with `;` without
escaping, so the distinct statement lists `["a;b"]` and `["a", "b"]`
hash identically. -/
theorem hash_not_injective_on_statements :
    splitMigA.statements ≠ splitMigB.statements ∧ hash splitMigA = hash splitMigB := by
  refine ⟨by decide, ?_⟩
  unfold hash
  exact congrArg sha256hex (by decide)

/-- C2 (amended): the checksum depends on the statement sequence only
through its `;`-joined concatenation; two migrations whose joins agree
share a checksum even when their statement lists differ. -/
theorem hash_eq_of_join_eq (m1 m2 : Migration)
    (h : String.intercalate ";" m1.statements = String.intercalate ";" m2.statements) :
    hash m1 = hash m2 := by
  unfold hash
  exact congrArg sha256hex h

/-- C2 (witness): the amended statement at the concrete colliding pair. -/
theorem hash_eq_of_join_eq_witness : hash splitMigA = hash splitMigB :=
  hash_eq_of_join_eq splitMigA splitMigB (by decide)

/-- C9 (counterexample): a banner containing both `mysql` and
`postgresql` (case-insensitively) selects the PostgreSQL profile, not
the MySQL profile the claim's second clause demands. -/
theorem version_mysql_clause_fails :
    strContains (strToLower "MySQL PostgreSQL") "mysql" = true ∧
    version "MySQL PostgreSQL" = some DBType.postgresql ∧
    version "MySQL PostgreSQL" ≠ some DBType.mysql := by
  refine ⟨?_, ?_, ?_⟩ <;> decide

/-- C9 (amended): dialect detection returns PostgreSQL when the lowered
banner contains `postgresql`; MySQL when it contains `mariadb` or
`mysql` but not `postgresql`; and fails otherwise. -/
theorem version_detection (s : String) :
    (strContains (strToLower s) "postgresql" = true → version s = some DBType.postgresql) ∧
    (strContains (strToLower s) "postgresql" = false →
      (strContains (strToLower s) "mariadb" = true ∨ strContains (strToLower s) "mysql" = true) →
      version s = some DBType.mysql) ∧
    (strContains (strToLower s) "postgresql" = false →
      strContains (strToLower s) "mariadb" = false →
      strContains (strToLower s) "mysql" = false → version s = none) := by
  refine ⟨fun h1 => ?_, fun h1 h2 => ?_, fun h1 h2 h3 => ?_⟩
  · simp [version, h1]
  · rcases h2 with h2 | h2 <;> simp [version, h1, h2]
  · simp [version, h1, h2, h3]

/-- C9 (witness): the PostgreSQL clause of the amended statement at the
example banner from the source comment. -/
theorem version_detection_witness :
    version "PostgreSQL 12.2 on x86_64-apple-darwin19.4.0" = some DBType.postgresql :=
  (version_detection "PostgreSQL 12.2 on x86_64-apple-darwin19.4.0").1 (by decide)

/-- C10: `extractVersion` returns -1 when the filename has no digit
characters; returns the decimal value of the concatenated digits when it
fits an `int64`; and panics (instead of returning an error) on the
20-digit filename whose digits exceed the `int64` maximum. -/
theorem extractVersion_spec :
    (∀ name : String, (∀ c ∈ name.data, isDigitChar c = false) →
      extractVersion name = .value (-1)) ∧
    (∀ name : String, digitsOf name ≠ [] → digitsToNat (digitsOf name) ≤ int64Max →
      extractVersion name = .value (digitsToNat (digitsOf name))) ∧
    extractVersion "99999999999999999999.sql" = .panicked "99999999999999999999" := by
  refine ⟨?_, ?_, by decide⟩
  · intro name h
    have hnil : digitsOf name = [] := by
      simp only [digitsOf, List.filter_eq_nil_iff]
      intro a ha
      simp [h a ha]
    simp [extractVersion, hnil]
  · intro name h1 h2
    have h1' : (digitsOf name).isEmpty = false := by
      cases hd : digitsOf name with
      | nil => exact absurd hd h1
      | cons a l => simp
    simp [extractVersion, h1', h2]

/-- C10 (witness): the two value-returning clauses at concrete
filenames. -/
theorem extractVersion_spec_witness :
    extractVersion "setup.sql" = .value (-1) ∧ extractVersion "V12_init3.sql" = .value 123 := by
  constructor
  · exact extractVersion_spec.1 "setup.sql" (by decide)
  · have h := extractVersion_spec.2.1 "V12_init3.sql" (by decide) (by decide)
    have hv : digitsToNat (digitsOf "V12_init3.sql") = 123 := by decide
    rw [hv] at h
    exact h

theorem find?_dirty_none {l : List HistoryEntry}
    (h : ∀ e ∈ l, e.status = "success") :
    l.find? (fun e => e.status != "success") = none := by
  apply List.find?_eq_none.2
  intro x hx
  simp [h x hx]

/-- C3: with the dialect detected, any loaded history entry whose status
is not `success` makes `Apply` return the dirty-history error naming a
non-success entry, with no history row inserted and no statement
executed, whatever migrations are supplied. -/
theorem apply_dirty_state_blocks (db : DBModel)
    (reorder : List (String × List Migration) → List (String × List Migration))
    (ms : List Migration) (e : HistoryEntry)
    (hdet : (version db.versionBanner).isSome)
    (he : e ∈ db.history) (hs : e.status ≠ "success") :
    ∃ e', (Apply db reorder ms).err = some (.dirtyHistory e') ∧ e' ∈ db.history ∧
      e'.status ≠ "success" ∧ (Apply db reorder ms).history = db.history ∧
      (Apply db reorder ms).started = [] ∧ (Apply db reorder ms).executed = [] := by
  obtain ⟨t, ht⟩ := Option.isSome_iff_exists.1 hdet
  cases hfind : db.history.find? (fun e => e.status != "success") with
  | none =>
    exfalso
    have hx := List.find?_eq_none.1 hfind e he
    simp only [bne_iff_ne, ne_eq, Decidable.not_not] at hx
    exact hs hx
  | some e' =>
    have hp := List.find?_some hfind
    have hm := List.mem_of_find?_eq_some hfind
    simp only [bne_iff_ne, ne_eq] at hp
    exact ⟨e', by simp [Apply, ht, hfind], hm, hp, by simp [Apply, ht, hfind],
      by simp [Apply, ht, hfind], by simp [Apply, ht, hfind]⟩

/-- C3 (witness): the theorem at a concrete database whose history holds
one failed row. -/
theorem apply_dirty_state_blocks_witness :
    ∃ e', (Apply dirtyDB id []).err = some (.dirtyHistory e') ∧ e' ∈ dirtyDB.history ∧
      e'.status ≠ "success" ∧ (Apply dirtyDB id []).history = dirtyDB.history ∧
      (Apply dirtyDB id []).started = [] ∧ (Apply dirtyDB id []).executed = [] :=
  apply_dirty_state_blocks dirtyDB id [] ⟨"g", 1, "s", "sql", "abc", 0, 0, "failed", "boom"⟩
    (by decide) (by decide) (by decide)

theorem dropWhile_exists_not {p : α → Bool} {l : List α}
    (h : ∃ x ∈ l, p x = false) : ∃ x ∈ l.dropWhile p, p x = false := by
  induction l with
  | nil => simp at h
  | cons a l ih =>
    obtain ⟨x, hx, hpx⟩ := h
    by_cases hpa : p a = true
    · rw [List.dropWhile_cons_of_pos hpa]
      rw [List.mem_cons] at hx
      rcases hx with hx | hx
      · subst hx; rw [hpa] at hpx; cases hpx
      · exact ih ⟨x, hx, hpx⟩
    · rw [List.dropWhile_cons_of_neg hpa]
      exact ⟨x, hx, hpx⟩

theorem trimSpaceChars_pos {l : List Char}
    (h : ∃ x ∈ l, goIsSpace x = false) : (trimSpaceChars l).length > 0 := by
  unfold trimSpaceChars
  have h1 := dropWhile_exists_not h
  have h2 : ∃ x ∈ (l.dropWhile goIsSpace).reverse, goIsSpace x = false := by
    obtain ⟨x, hx, hpx⟩ := h1
    exact ⟨x, List.mem_reverse.2 hx, hpx⟩
  have h3 := dropWhile_exists_not h2
  obtain ⟨x, hx, _⟩ := h3
  have : x ∈ (((l.dropWhile goIsSpace).reverse.dropWhile goIsSpace)).reverse :=
    List.mem_reverse.2 hx
  exact List.length_pos.2 (List.ne_nil_of_mem this)

theorem scanStep_preserves_nonspace {st : ScanState} {c : Char}
    (hc : c ≠ ';') (h : ∃ x ∈ st.buf, goIsSpace x = false) :
    ∃ x ∈ (scanStep st c).buf, goIsSpace x = false := by
  unfold scanStep
  rw [if_neg hc]
  set r1 := if c = '\r' ∨ c = '\n' ∨ c = '\t' then ' ' else c with hr1
  by_cases hsk : st.lastRune = ' ' ∧ r1 = ' '
  · rw [if_pos hsk]; exact h
  · rw [if_neg hsk]
    obtain ⟨x, hx, hpx⟩ := h
    exact ⟨x, List.mem_append_left _ hx, hpx⟩

theorem scanStep_adds_nonspace {st : ScanState} {c : Char}
    (hc : c ≠ ';') (hsp : goIsSpace c = false) :
    ∃ x ∈ (scanStep st c).buf, goIsSpace x = false := by
  unfold scanStep
  rw [if_neg hc]
  have hfold : (if c = '\r' ∨ c = '\n' ∨ c = '\t' then ' ' else c) = c := by
    rw [if_neg]
    rintro (h | h | h) <;> subst h <;> simp [goIsSpace] at hsp
  rw [hfold]
  have hcs : c ≠ ' ' := by
    intro h; subst h; simp [goIsSpace] at hsp
  rw [if_neg (by rintro ⟨_, h⟩; exact hcs h)]
  exact ⟨c, List.mem_append_right _ (by simp), hsp⟩

theorem foldl_scan_preserves_nonspace {r : List Char} (st : ScanState)
    (hr : ∀ c ∈ r, c ≠ ';') (h : ∃ x ∈ st.buf, goIsSpace x = false) :
    ∃ x ∈ (r.foldl scanStep st).buf, goIsSpace x = false := by
  induction r generalizing st with
  | nil => exact h
  | cons c r ih =>
    rw [List.foldl_cons]
    exact ih _ (fun d hd => hr d (List.mem_cons_of_mem _ hd))
      (scanStep_preserves_nonspace (hr c (List.mem_cons_self c r)) h)

theorem foldl_scan_nonspace {r : List Char} (st : ScanState)
    (hr : ∀ c ∈ r, c ≠ ';') (h : ∃ x ∈ r, goIsSpace x = false) :
    ∃ x ∈ (r.foldl scanStep st).buf, goIsSpace x = false := by
  induction r generalizing st with
  | nil => simp at h
  | cons c r ih =>
    rw [List.foldl_cons]
    obtain ⟨x, hx, hpx⟩ := h
    rw [List.mem_cons] at hx
    rcases hx with hx | hx
    · subst hx
      exact foldl_scan_preserves_nonspace _ (fun d hd => hr d (List.mem_cons_of_mem _ hd))
        (scanStep_adds_nonspace (hr x (List.mem_cons_self x r)) hpx)
    · exact ih _ (fun d hd => hr d (List.mem_cons_of_mem _ hd)) ⟨x, hx, hpx⟩

theorem afterLastSemi_decomp (cs : List Char) :
    cs = (cs.reverse.dropWhile (fun c => c != ';')).reverse ++ afterLastSemi cs ∧
      ∀ c ∈ afterLastSemi cs, c ≠ ';' := by
  constructor
  · have key : List.takeWhile (fun c => c != ';') cs.reverse ++
        List.dropWhile (fun c => c != ';') cs.reverse = cs.reverse :=
      List.takeWhile_append_dropWhile _ _
    calc cs = cs.reverse.reverse := (List.reverse_reverse cs).symm
      _ = (List.takeWhile (fun c => c != ';') cs.reverse ++
            List.dropWhile (fun c => c != ';') cs.reverse).reverse := by rw [key]
      _ = (List.dropWhile (fun c => c != ';') cs.reverse).reverse ++
            (List.takeWhile (fun c => c != ';') cs.reverse).reverse := by
            rw [List.reverse_append]
      _ = (cs.reverse.dropWhile (fun c => c != ';')).reverse ++ afterLastSemi cs := rfl
  · intro c hc
    have := List.mem_takeWhile_imp (List.mem_reverse.1 hc)
    simpa [bne_iff_ne] using this

/-- C8: whenever the comment-stripped text still holds a non-white-space
character after its last `;` (in particular when it has no `;` at all),
the statement splitter fails with the non-terminated-statement parse
error instead of returning statements. -/
theorem split_leftover_is_error (strip : String → String) (s : String)
    (h : ∃ c ∈ afterLastSemi (strip s).data, goIsSpace c = false) :
    parseStatementsFromString strip s = .error "non terminated sql statement" := by
  unfold parseStatementsFromString parseStatementsFromChars scanChars
  obtain ⟨hdec, hnosemi⟩ := afterLastSemi_decomp (strip s).data
  conv_lhs => rw [hdec]
  rw [List.foldl_append]
  have hbuf := foldl_scan_nonspace
    (((strip s).data.reverse.dropWhile (fun c => c != ';')).reverse.foldl scanStep ⟨[], [], Char.ofNat 0⟩)
    hnosemi h
  rw [if_pos (trimSpaceChars_pos hbuf)]

/-- C8 (witness): a statement missing its final semicolon is rejected. -/
theorem split_leftover_is_error_witness :
    parseStatementsFromString id "CREATE TABLE t (x INT)" = .error "non terminated sql statement" :=
  split_leftover_is_error id "CREATE TABLE t (x INT)" (by decide)

set_option maxRecDepth 20000 in
/-- Sanity check of the checksum engine embedding against the FIPS 180-2
test vector for "abc". -/
theorem sha256hex_abc_vector :
    sha256hex "abc" = "ba7816bf8f01cfea414140de5dae2223b00361a396177a9cb410ff61f20015ad" := by
  decide

theorem keyMatches_iff {m : Migration} {e : HistoryEntry} :
    keyMatches m e = true ↔ (m.group = e.group ∧ m.version = e.version) := by
  simp [keyMatches]

theorem entry_mem_key_unique {l : List HistoryEntry} (hp : l.Pairwise distinctEntryKeys)
    {a b : HistoryEntry} (ha : a ∈ l) (hb : b ∈ l)
    (hg : a.group = b.group) (hv : a.version = b.version) : a = b := by
  induction l with
  | nil => simp at ha
  | cons x t ih =>
    rw [List.pairwise_cons] at hp
    rcases List.mem_cons.1 ha with rfl | ha' <;> rcases List.mem_cons.1 hb with rfl | hb'
    · rfl
    · exact absurd ⟨hg, hv⟩ (hp.1 b hb')
    · exact absurd ⟨hg.symm, hv.symm⟩ (hp.1 a ha')
    · exact ih hp.2 ha' hb'

theorem mig_mem_key_unique {l : List Migration} (hp : l.Pairwise distinctKeys)
    {a b : Migration} (ha : a ∈ l) (hb : b ∈ l)
    (hg : a.group = b.group) (hv : a.version = b.version) : a = b := by
  induction l with
  | nil => simp at ha
  | cons x t ih =>
    rw [List.pairwise_cons] at hp
    rcases List.mem_cons.1 ha with rfl | ha' <;> rcases List.mem_cons.1 hb with rfl | hb'
    · rfl
    · exact absurd ⟨hg, hv⟩ (hp.1 b hb')
    · exact absurd ⟨hg.symm, hv.symm⟩ (hp.1 a ha')
    · exact ih hp.2 ha' hb'

theorem pair_mem_key_unique {l : List (String × List Migration)}
    (hnd : (l.map Prod.fst).Nodup) {p q : String × List Migration}
    (hp : p ∈ l) (hq : q ∈ l) (h1 : p.1 = q.1) : p = q := by
  induction l with
  | nil => simp at hp
  | cons x t ih =>
    rw [List.map_cons, List.nodup_cons] at hnd
    rcases List.mem_cons.1 hp with rfl | hp' <;> rcases List.mem_cons.1 hq with rfl | hq'
    · rfl
    · exact absurd (h1 ▸ List.mem_map.2 ⟨q, hq', rfl⟩) hnd.1
    · exact absurd (h1 ▸ List.mem_map.2 ⟨p, hp', rfl⟩) hnd.1
    · exact ih hnd.2 hp' hq'

theorem updateEntry_ne {u e : HistoryEntry}
    (h : ¬(e.group = u.group ∧ e.version = u.version)) : updateEntry u e = e := by
  unfold updateEntry
  split
  · next hcond =>
    exfalso
    simp only [Bool.and_eq_true, beq_iff_eq] at hcond
    exact h hcond
  · rfl

theorem updateHistory_disjoint {hist : List HistoryEntry} {u : HistoryEntry}
    (h : ∀ e ∈ hist, ¬(e.group = u.group ∧ e.version = u.version)) :
    updateHistory hist u = hist := by
  unfold updateHistory
  rw [List.map_congr_left (fun e he => updateEntry_ne (h e he))]
  exact List.map_id _

theorem updateHistory_append (h1 h2 : List HistoryEntry) (u : HistoryEntry) :
    updateHistory (h1 ++ h2) u = updateHistory h1 u ++ updateHistory h2 u :=
  List.map_append _ _ _

theorem update_executing_success (m : Migration) :
    updateEntry { executingEntry m with status := "success" } (executingEntry m) =
      successRowOf m := by
  simp [updateEntry, executingEntry, successRowOf]

theorem update_executing_failed (m : Migration) (msg : String) :
    updateEntry { executingEntry m with status := "failed", log := msg } (executingEntry m) =
      failedRowOf m msg := by
  simp [updateEntry, executingEntry, failedRowOf]

theorem execute_ok_done (exec : String → Option String) :
    ∀ ss done, execute exec ss = (done, none) → done = ss := by
  intro ss
  induction ss with
  | nil =>
    intro done h
    simp only [execute] at h
    injection h with h1 _
    exact h1.symm
  | cons s rest ih =>
    intro done h
    rw [execute] at h
    cases hx : exec s with
    | some msg => rw [hx] at h; simp at h
    | none =>
      rw [hx] at h
      simp only at h
      injection h with h1 h2
      have hr : execute exec rest = ((execute exec rest).1, (execute exec rest).2) := rfl
      rw [h2] at hr
      rw [← h1, ih _ hr]

theorem buildGroups_cons_some {entries : List HistoryEntry} {m : Migration}
    {rest : List Migration} {gs₀ : List (String × List Migration)} {e : HistoryEntry}
    (hf : entries.find? (keyMatches m) = some e) :
    buildGroups entries (m :: rest) gs₀ =
      if (hash m != e.checksum) = true then .error (.modifiedMigration e m)
      else buildGroups entries rest gs₀ := by
  rw [buildGroups, hf]

theorem buildGroups_cons_none {entries : List HistoryEntry} {m : Migration}
    {rest : List Migration} {gs₀ : List (String × List Migration)}
    (hf : entries.find? (keyMatches m) = none) :
    buildGroups entries (m :: rest) gs₀ = buildGroups entries rest (insertGroup gs₀ m) := by
  rw [buildGroups, hf]

theorem buildGroups_error_form {entries : List HistoryEntry} :
    ∀ {ms : List Migration} {gs₀ : List (String × List Migration)} {er : ApplyError},
      buildGroups entries ms gs₀ = .error er → ∃ e m, er = .modifiedMigration e m := by
  intro ms
  induction ms with
  | nil => intro gs₀ er h; simp [buildGroups] at h
  | cons m rest ih =>
    intro gs₀ er h
    cases hf : entries.find? (keyMatches m) with
    | some e =>
      rw [buildGroups_cons_some hf] at h
      by_cases hb : (hash m != e.checksum) = true
      · rw [if_pos hb] at h
        injection h with h'
        exact ⟨e, m, h'.symm⟩
      · rw [if_neg hb] at h
        exact ih h
    | none => rw [buildGroups_cons_none hf] at h; exact ih h

theorem buildGroups_ok_checksum {entries : List HistoryEntry} :
    ∀ {ms : List Migration} {gs₀ gs : List (String × List Migration)},
      buildGroups entries ms gs₀ = .ok gs →
      ∀ m ∈ ms, ∀ e, entries.find? (keyMatches m) = some e → hash m = e.checksum := by
  intro ms
  induction ms with
  | nil => intro gs₀ gs _ m hm; simp at hm
  | cons m₀ rest ih =>
    intro gs₀ gs h m hm e hfe
    rcases List.mem_cons.1 hm with rfl | hm'
    · rw [buildGroups_cons_some hfe] at h
      by_cases hb : (hash m != e.checksum) = true
      · rw [if_pos hb] at h; cases h
      · simpa using hb
    · cases hf : entries.find? (keyMatches m₀) with
      | some e₀ =>
        rw [buildGroups_cons_some hf] at h
        by_cases hb : (hash m₀ != e₀.checksum) = true
        · rw [if_pos hb] at h; cases h
        · rw [if_neg hb] at h; exact ih h m hm' e hfe
      | none => rw [buildGroups_cons_none hf] at h; exact ih h m hm' e hfe

theorem buildGroups_drift {entries : List HistoryEntry} {m : Migration} {e : HistoryEntry}
    (hek : entries.Pairwise distinctEntryKeys)
    (he : e ∈ entries) (hg : e.group = m.group) (hv : e.version = m.version)
    (hc : e.checksum ≠ hash m) :
    ∀ {ms : List Migration} (gs₀ : List (String × List Migration)), m ∈ ms →
      ∃ e' m', buildGroups entries ms gs₀ = .error (.modifiedMigration e' m') := by
  intro ms
  induction ms with
  | nil => intro gs₀ hm; simp at hm
  | cons m₀ rest ih =>
    intro gs₀ hm
    rcases List.mem_cons.1 hm with rfl | hm'
    · cases hf : entries.find? (keyMatches m) with
      | some e₀ =>
        have he₀ : e₀ ∈ entries := List.mem_of_find?_eq_some hf
        have hk := keyMatches_iff.1 (List.find?_some hf)
        have : e = e₀ :=
          entry_mem_key_unique hek he he₀ (hg.trans hk.1) (hv.trans hk.2)
        subst this
        have hb : (hash m != e.checksum) = true := by
          simp only [bne_iff_ne, ne_eq]
          exact fun hcc => hc hcc.symm
        exact ⟨e, m, by rw [buildGroups_cons_some hf, if_pos hb]⟩
      | none =>
        exfalso
        have := List.find?_eq_none.1 hf e he
        exact this (keyMatches_iff.2 ⟨hg.symm, hv.symm⟩)
    · cases hf : entries.find? (keyMatches m₀) with
      | some e₀ =>
        by_cases hb : (hash m₀ != e₀.checksum) = true
        · exact ⟨e₀, m₀, by rw [buildGroups_cons_some hf, if_pos hb]⟩
        · obtain ⟨e', m', hr⟩ := ih gs₀ hm'
          exact ⟨e', m', by rw [buildGroups_cons_some hf, if_neg hb]; exact hr⟩
      | none =>
        obtain ⟨e', m', hr⟩ := ih (insertGroup gs₀ m₀) hm'
        exact ⟨e', m', by rw [buildGroups_cons_none hf]; exact hr⟩

theorem runPending_nil (exec : String → Option String) (hist : List HistoryEntry)
    (st : List Migration) (ex : List String) :
    runPending exec hist st ex [] = ⟨none, hist, st, ex⟩ := rfl

theorem runPending_cons_fail {exec : String → Option String} {hist : List HistoryEntry}
    {st : List Migration} {ex : List String} {m : Migration} {rest : List Migration}
    {done : List String} {msg : String}
    (hx : execute exec m.statements = (done, some msg)) :
    runPending exec hist st ex (m :: rest) =
      ⟨some (.executionFailed m.group m.version msg),
       updateHistory (hist ++ [executingEntry m])
         { executingEntry m with status := "failed", log := msg },
       st ++ [m], ex ++ done⟩ := by
  rw [runPending, hx]

theorem runPending_cons_ok {exec : String → Option String} {hist : List HistoryEntry}
    {st : List Migration} {ex : List String} {m : Migration} {rest : List Migration}
    {done : List String}
    (hx : execute exec m.statements = (done, none)) :
    runPending exec hist st ex (m :: rest) =
      runPending exec
        (updateHistory (hist ++ [executingEntry m]) { executingEntry m with status := "success" })
        (st ++ [m]) (ex ++ done) rest := by
  rw [runPending, hx]

theorem insert_then_update_success (hist : List HistoryEntry) (m : Migration)
    (hd : ∀ e ∈ hist, ¬(e.group = m.group ∧ e.version = m.version)) :
    updateHistory (hist ++ [executingEntry m]) { executingEntry m with status := "success" } =
      hist ++ [successRowOf m] := by
  rw [updateHistory_append, updateHistory_disjoint (fun e he => hd e he)]
  unfold updateHistory
  rw [List.map_cons, List.map_nil, update_executing_success]

theorem insert_then_update_failed (hist : List HistoryEntry) (m : Migration) (msg : String)
    (hd : ∀ e ∈ hist, ¬(e.group = m.group ∧ e.version = m.version)) :
    updateHistory (hist ++ [executingEntry m])
      { executingEntry m with status := "failed", log := msg } =
      hist ++ [failedRowOf m msg] := by
  rw [updateHistory_append, updateHistory_disjoint (fun e he => hd e he)]
  unfold updateHistory
  rw [List.map_cons, List.map_nil, update_executing_failed]

theorem hd_extend {hist : List HistoryEntry} {m : Migration} {rest : List Migration}
    (hd : ∀ m' ∈ m :: rest, ∀ e ∈ hist, ¬(e.group = m'.group ∧ e.version = m'.version))
    (hp1 : ∀ m' ∈ rest, distinctKeys m m') :
    ∀ m' ∈ rest, ∀ e ∈ hist ++ [successRowOf m],
      ¬(e.group = m'.group ∧ e.version = m'.version) := by
  intro m' hm' e he
  rcases List.mem_append.1 he with he' | he'
  · exact hd m' (List.mem_cons_of_mem _ hm') e he'
  · have : e = successRowOf m := by simpa using he'
    subst this
    exact hp1 m' hm'

theorem runPending_started_decomp (exec : String → Option String) :
    ∀ (p : List Migration) (hist : List HistoryEntry) (st : List Migration) (ex : List String),
      ∃ t, (runPending exec hist st ex p).started = st ++ t ∧ t.Sublist p := by
  intro p
  induction p with
  | nil => intro hist st ex; exact ⟨[], by rw [runPending_nil]; simp, List.nil_sublist _⟩
  | cons m rest ih =>
    intro hist st ex
    cases hx : execute exec m.statements with
    | mk done r =>
      cases r with
      | some msg =>
        refine ⟨[m], ?_, (List.nil_sublist rest).cons₂ m⟩
        rw [runPending_cons_fail hx]
      | none =>
        obtain ⟨t, hts, hsub⟩ := ih
          (updateHistory (hist ++ [executingEntry m]) { executingEntry m with status := "success" })
          (st ++ [m]) (ex ++ done)
        refine ⟨m :: t, ?_, hsub.cons₂ m⟩
        rw [runPending_cons_ok hx, hts, List.append_assoc]
        rfl

theorem runPending_ok_started (exec : String → Option String) :
    ∀ (p : List Migration) (hist : List HistoryEntry) (st : List Migration) (ex : List String),
      (runPending exec hist st ex p).err = none →
      (runPending exec hist st ex p).started = st ++ p := by
  intro p
  induction p with
  | nil => intro hist st ex _; rw [runPending_nil]; simp
  | cons m rest ih =>
    intro hist st ex h
    cases hx : execute exec m.statements with
    | mk done r =>
      cases r with
      | some msg =>
        rw [runPending_cons_fail hx] at h
        simp at h
      | none =>
        rw [runPending_cons_ok hx] at h ⊢
        rw [ih _ _ _ h, List.append_assoc]
        rfl

theorem runPending_ok_history (exec : String → Option String) :
    ∀ (p : List Migration) (hist : List HistoryEntry) (st : List Migration) (ex : List String),
      (∀ m' ∈ p, ∀ e ∈ hist, ¬(e.group = m'.group ∧ e.version = m'.version)) →
      p.Pairwise distinctKeys →
      (runPending exec hist st ex p).err = none →
      (runPending exec hist st ex p).history = hist ++ p.map successRowOf := by
  intro p
  induction p with
  | nil => intro hist st ex _ _ _; rw [runPending_nil]; simp
  | cons m rest ih =>
    intro hist st ex hd hp h
    rw [List.pairwise_cons] at hp
    cases hx : execute exec m.statements with
    | mk done r =>
      cases r with
      | some msg =>
        rw [runPending_cons_fail hx] at h
        simp at h
      | none =>
        have hu := insert_then_update_success hist m
          (fun e he => hd m (List.mem_cons_self m rest) e he)
        rw [runPending_cons_ok hx, hu] at h ⊢
        rw [ih _ _ _ (hd_extend hd hp.1) hp.2 h, List.map_cons, List.append_assoc]
        rfl

theorem runPending_fail (exec : String → Option String) :
    ∀ (p : List Migration) (hist : List HistoryEntry) (st : List Migration) (ex : List String)
      (er : ApplyError),
      (∀ m' ∈ p, ∀ e ∈ hist, ¬(e.group = m'.group ∧ e.version = m'.version)) →
      p.Pairwise distinctKeys →
      (runPending exec hist st ex p).err = some er →
      ∃ pre mf done msg, (∃ rest2, p = pre ++ mf :: rest2) ∧
        er = .executionFailed mf.group mf.version msg ∧
        execute exec mf.statements = (done, some msg) ∧
        (runPending exec hist st ex p).started = st ++ pre ++ [mf] ∧
        (runPending exec hist st ex p).history =
          hist ++ pre.map successRowOf ++ [failedRowOf mf msg] ∧
        (runPending exec hist st ex p).executed =
          ex ++ (pre.map (fun m' => m'.statements)).flatten ++ done := by
  intro p
  induction p with
  | nil => intro hist st ex er _ _ h; rw [runPending_nil] at h; simp at h
  | cons m rest ih =>
    intro hist st ex er hd hp h
    rw [List.pairwise_cons] at hp
    cases hx : execute exec m.statements with
    | mk done r =>
      cases r with
      | some msg =>
        rw [runPending_cons_fail hx] at h
        injection h with h'
        have hdm := fun e he => hd m (List.mem_cons_self m rest) e he
        refine ⟨[], m, done, msg, ⟨rest, rfl⟩, h'.symm, hx, ?_, ?_, ?_⟩
        · rw [runPending_cons_fail hx]
          simp
        · rw [runPending_cons_fail hx]
          show updateHistory (hist ++ [executingEntry m]) _ = _
          rw [insert_then_update_failed hist m msg hdm]
          simp
        · rw [runPending_cons_fail hx]
          simp
      | none =>
        have hdone : done = m.statements := execute_ok_done exec _ _ hx
        have hu := insert_then_update_success hist m
          (fun e he => hd m (List.mem_cons_self m rest) e he)
        rw [runPending_cons_ok hx, hu] at h
        obtain ⟨pre', mf, done', msg', ⟨rest2, hrest⟩, her, hxe, hst, hh, hex⟩ :=
          ih (hist ++ [successRowOf m]) (st ++ [m]) (ex ++ done) er
            (hd_extend hd hp.1) hp.2 h
        refine ⟨m :: pre', mf, done', msg', ⟨rest2, by rw [hrest, List.cons_append]⟩,
          her, hxe, ?_, ?_, ?_⟩
        · rw [runPending_cons_ok hx, hu, hst]
          simp [List.append_assoc]
        · rw [runPending_cons_ok hx, hu, hh]
          simp [List.append_assoc]
        · rw [runPending_cons_ok hx, hu, hex, hdone]
          simp [List.append_assoc]

theorem groupGetList_nil (g : String) : groupGetList [] g = [] := rfl

theorem groupGetList_cons (k : String) (x : List Migration)
    (rest : List (String × List Migration)) (g : String) :
    groupGetList ((k, x) :: rest) g = if k = g then x else groupGetList rest g := by
  by_cases h : k = g
  · have hf : List.find? (fun p => p.1 == g) ((k, x) :: rest) = some (k, x) :=
      List.find?_cons_of_pos _ (by simpa using h)
    rw [if_pos h, groupGetList, hf]
  · have hf : List.find? (fun p => p.1 == g) ((k, x) :: rest) =
        List.find? (fun p => p.1 == g) rest :=
      List.find?_cons_of_neg _ (by simpa using h)
    rw [if_neg h, groupGetList, hf, groupGetList]

theorem groupGetList_some {l : List (String × List Migration)} {g : String}
    {p : String × List Migration} (hf : l.find? (fun p => p.1 == g) = some p) :
    groupGetList l g = p.2 := by
  rw [groupGetList, hf]

theorem groupGetList_none {l : List (String × List Migration)} {g : String}
    (hf : l.find? (fun p => p.1 == g) = none) : groupGetList l g = [] := by
  rw [groupGetList, hf]

theorem insertGroup_flatten_perm (gs : List (String × List Migration)) (m : Migration) :
    (((insertGroup gs m).map Prod.snd).flatten).Perm (m :: (gs.map Prod.snd).flatten) := by
  induction gs with
  | nil => simp [insertGroup]
  | cons p rest ih =>
    cases p with
    | mk k l =>
      by_cases hk : k = m.group
      · rw [insertGroup, if_pos hk]
        simp only [List.map_cons, List.flatten_cons]
        rw [List.append_assoc]
        exact List.perm_middle
      · rw [insertGroup, if_neg hk]
        simp only [List.map_cons, List.flatten_cons]
        exact (List.Perm.append_left l ih).trans List.perm_middle

theorem insertGroup_fst (gs : List (String × List Migration)) (m : Migration) :
    (insertGroup gs m).map Prod.fst = gs.map Prod.fst ∨
      ((insertGroup gs m).map Prod.fst = gs.map Prod.fst ++ [m.group] ∧
        m.group ∉ gs.map Prod.fst) := by
  induction gs with
  | nil => right; simp [insertGroup]
  | cons p rest ih =>
    cases p with
    | mk k l =>
      by_cases hk : k = m.group
      · left; rw [insertGroup, if_pos hk]; simp
      · rcases ih with ih | ⟨ih1, ih2⟩
        · left; rw [insertGroup, if_neg hk]; simp [ih]
        · right
          refine ⟨by rw [insertGroup, if_neg hk]; simp [ih1], ?_⟩
          simp only [List.map_cons, List.mem_cons]
          rintro (h | h)
          · exact hk h.symm
          · exact ih2 h

theorem insertGroup_nodup {gs : List (String × List Migration)} {m : Migration}
    (h : (gs.map Prod.fst).Nodup) : ((insertGroup gs m).map Prod.fst).Nodup := by
  rcases insertGroup_fst gs m with he | ⟨he, hm⟩
  · rw [he]; exact h
  · rw [he, List.nodup_append]
    refine ⟨h, List.nodup_singleton _, ?_⟩
    intro a ha hb
    rw [List.mem_singleton] at hb
    subst hb
    exact hm ha

theorem insertGroup_pure {gs : List (String × List Migration)} {m : Migration}
    (h : ∀ p ∈ gs, ∀ m' ∈ p.2, m'.group = p.1) :
    ∀ p ∈ insertGroup gs m, ∀ m' ∈ p.2, m'.group = p.1 := by
  induction gs with
  | nil =>
    intro p hp m' hm'
    simp only [insertGroup, List.mem_singleton] at hp
    subst hp
    simp only [List.mem_singleton] at hm'
    subst hm'
    rfl
  | cons q rest ih =>
    cases q with
    | mk k l =>
      intro p hp m' hm'
      by_cases hk : k = m.group
      · rw [insertGroup, if_pos hk] at hp
        rcases List.mem_cons.1 hp with rfl | hp'
        · rcases List.mem_append.1 hm' with h1 | h1
          · exact h (k, l) (List.mem_cons_self _ _) m' h1
          · rw [List.mem_singleton] at h1
            subst h1
            exact hk.symm
        · exact h p (List.mem_cons_of_mem _ hp') m' hm'
      · rw [insertGroup, if_neg hk] at hp
        rcases List.mem_cons.1 hp with rfl | hp'
        · exact h (k, l) (List.mem_cons_self _ _) m' hm'
        · exact ih (fun q hq => h q (List.mem_cons_of_mem _ hq)) p hp' m' hm'

theorem insertGroup_get (gs : List (String × List Migration)) (m : Migration) (g : String) :
    groupGetList (insertGroup gs m) g =
      if g = m.group then groupGetList gs g ++ [m] else groupGetList gs g := by
  induction gs with
  | nil =>
    rw [insertGroup, groupGetList_cons]
    by_cases hg : g = m.group
    · rw [if_pos hg, if_pos hg.symm, groupGetList_nil, List.nil_append]
    · rw [if_neg hg, if_neg (fun h => hg h.symm), groupGetList_nil]
  | cons q rest ih =>
    cases q with
    | mk k l =>
      by_cases hkm : k = m.group
      · rw [insertGroup, if_pos hkm, groupGetList_cons, groupGetList_cons]
        by_cases hkg : k = g
        · rw [if_pos hkg, if_pos hkg, if_pos (hkg ▸ hkm.symm ▸ rfl : g = m.group)]
        · rw [if_neg hkg, if_neg hkg,
            if_neg (fun h => hkg ((hkm.trans h.symm)))]
      · rw [insertGroup, if_neg hkm, groupGetList_cons, groupGetList_cons]
        by_cases hkg : k = g
        · rw [if_pos hkg, if_pos hkg, if_neg (fun h => hkm (hkg.trans h))]
        · rw [if_neg hkg, if_neg hkg, ih]

theorem pendingAll_cons_applied {entries : List HistoryEntry} {m : Migration}
    {rest : List Migration} {e : HistoryEntry}
    (hf : entries.find? (keyMatches m) = some e) :
    pendingAll entries (m :: rest) = pendingAll entries rest := by
  simp only [pendingAll, List.filter_cons, hf]
  simp

theorem pendingAll_cons_pending {entries : List HistoryEntry} {m : Migration}
    {rest : List Migration} (hf : entries.find? (keyMatches m) = none) :
    pendingAll entries (m :: rest) = m :: pendingAll entries rest := by
  simp only [pendingAll, List.filter_cons, hf]
  simp

theorem pendingOf_cons_applied {entries : List HistoryEntry} {m : Migration}
    {rest : List Migration} {g : String} {e : HistoryEntry}
    (hf : entries.find? (keyMatches m) = some e) :
    pendingOf entries (m :: rest) g = pendingOf entries rest g := by
  simp only [pendingOf, List.filter_cons, hf]
  simp

theorem pendingOf_cons_pending {entries : List HistoryEntry} {m : Migration}
    {rest : List Migration} {g : String} (hf : entries.find? (keyMatches m) = none) :
    pendingOf entries (m :: rest) g =
      if m.group = g then m :: pendingOf entries rest g else pendingOf entries rest g := by
  simp only [pendingOf, List.filter_cons, hf, Option.isNone_none, Bool.and_true]
  by_cases hg : m.group = g
  · simp [hg]
  · simp [hg]

theorem buildGroups_ok_props {entries : List HistoryEntry} :
    ∀ {ms : List Migration} {gs₀ gs : List (String × List Migration)},
      buildGroups entries ms gs₀ = .ok gs →
      ((gs.map Prod.snd).flatten).Perm ((gs₀.map Prod.snd).flatten ++ pendingAll entries ms) ∧
      ((∀ p ∈ gs₀, ∀ m' ∈ p.2, m'.group = p.1) → ∀ p ∈ gs, ∀ m' ∈ p.2, m'.group = p.1) ∧
      ((gs₀.map Prod.fst).Nodup → (gs.map Prod.fst).Nodup) ∧
      ∀ g, groupGetList gs g = groupGetList gs₀ g ++ pendingOf entries ms g := by
  intro ms
  induction ms with
  | nil =>
    intro gs₀ gs h
    rw [buildGroups] at h
    injection h with h'
    subst h'
    refine ⟨by simp [pendingAll], fun h => h, fun h => h, fun g => by simp [pendingOf]⟩
  | cons m rest ih =>
    intro gs₀ gs h
    cases hf : entries.find? (keyMatches m) with
    | some e =>
      rw [buildGroups_cons_some hf] at h
      by_cases hb : (hash m != e.checksum) = true
      · rw [if_pos hb] at h; cases h
      · rw [if_neg hb] at h
        obtain ⟨h1, h2, h3, h4⟩ := ih h
        refine ⟨?_, h2, h3, ?_⟩
        · rw [pendingAll_cons_applied hf]; exact h1
        · intro g; rw [pendingOf_cons_applied hf]; exact h4 g
    | none =>
      rw [buildGroups_cons_none hf] at h
      obtain ⟨h1, h2, h3, h4⟩ := ih h
      refine ⟨?_, ?_, ?_, ?_⟩
      · rw [pendingAll_cons_pending hf]
        refine h1.trans ?_
        refine ((insertGroup_flatten_perm gs₀ m).append_right _).trans ?_
        rw [List.cons_append]
        exact List.perm_middle.symm
      · intro hpu
        exact h2 (insertGroup_pure hpu)
      · intro hnd
        exact h3 (insertGroup_nodup hnd)
      · intro g
        rw [h4 g, insertGroup_get, pendingOf_cons_pending hf]
        by_cases hg : g = m.group
        · rw [if_pos hg, if_pos hg.symm, List.append_assoc]
          rfl
        · rw [if_neg hg, if_neg (fun h => hg h.symm)]

theorem map_sortGroup_fst (gs : List (String × List Migration)) :
    (gs.map sortGroup).map Prod.fst = gs.map Prod.fst := by
  rw [List.map_map]
  rfl

theorem map_sortGroup_flatten_perm (gs : List (String × List Migration)) :
    (((gs.map sortGroup).map Prod.snd).flatten).Perm ((gs.map Prod.snd).flatten) := by
  induction gs with
  | nil => simp
  | cons p rest ih =>
    simp only [List.map_cons, List.flatten_cons]
    exact (List.perm_insertionSort migLe p.2).append ih

theorem sortGroup_pure {gs : List (String × List Migration)}
    (h : ∀ p ∈ gs, ∀ m' ∈ p.2, m'.group = p.1) :
    ∀ p ∈ gs.map sortGroup, ∀ m' ∈ p.2, m'.group = p.1 := by
  intro p hp m' hm'
  obtain ⟨q, hq, rfl⟩ := List.mem_map.1 hp
  exact h q hq m' ((List.perm_insertionSort migLe q.2).mem_iff.1 hm')

theorem sortGroup_get (gs : List (String × List Migration)) (g : String) :
    groupGetList (gs.map sortGroup) g = List.insertionSort migLe (groupGetList gs g) := by
  induction gs with
  | nil => simp [groupGetList_nil, List.insertionSort]
  | cons q rest ih =>
    cases q with
    | mk k l =>
      rw [List.map_cons,
        show sortGroup (k, l) = (k, List.insertionSort migLe l) from rfl,
        groupGetList_cons, groupGetList_cons]
      by_cases h : k = g
      · rw [if_pos h, if_pos h]
      · rw [if_neg h, if_neg h, ih]

theorem perm_get {l l' : List (String × List Migration)} (hperm : l'.Perm l)
    (hnd : (l.map Prod.fst).Nodup) (g : String) :
    groupGetList l' g = groupGetList l g := by
  cases hf : l.find? (fun p => p.1 == g) with
  | some p =>
    have hp : p ∈ l := List.mem_of_find?_eq_some hf
    have hpg : p.1 = g := by simpa using List.find?_some hf
    cases hf' : l'.find? (fun p => p.1 == g) with
    | none =>
      exfalso
      exact (List.find?_eq_none.1 hf' p (hperm.mem_iff.2 hp)) (by simpa using hpg)
    | some q =>
      have hq : q ∈ l := hperm.mem_iff.1 (List.mem_of_find?_eq_some hf')
      have hqg : q.1 = g := by simpa using List.find?_some hf'
      rw [groupGetList_some hf, groupGetList_some hf',
        pair_mem_key_unique hnd hq hp (hqg.trans hpg.symm)]
  | none =>
    have hn : l'.find? (fun p => p.1 == g) = none :=
      List.find?_eq_none.2 (fun p hp => List.find?_eq_none.1 hf p (hperm.mem_iff.1 hp))
    rw [groupGetList_none hf, groupGetList_none hn]

theorem flatten_filter_group {l : List (String × List Migration)} (g : String)
    (hpure : ∀ p ∈ l, ∀ m' ∈ p.2, m'.group = p.1)
    (hnd : (l.map Prod.fst).Nodup) :
    ((l.map Prod.snd).flatten).filter (fun m => m.group == g) = groupGetList l g := by
  induction l with
  | nil => simp [groupGetList_nil]
  | cons q rest ih =>
    cases q with
    | mk k lm =>
      rw [List.map_cons, List.flatten_cons, List.filter_append, groupGetList_cons]
      rw [List.map_cons, List.nodup_cons] at hnd
      by_cases hk : k = g
      · rw [if_pos hk]
        have h1 : lm.filter (fun m => m.group == g) = lm :=
          List.filter_eq_self.2 (fun m hm => by
            simp [(hpure (k, lm) (List.mem_cons_self _ _) m hm).trans hk])
        have h2 : ((rest.map Prod.snd).flatten).filter (fun m => m.group == g) = [] := by
          apply List.filter_eq_nil_iff.2
          intro m hm
          obtain ⟨lx, hlx, hmlx⟩ := List.mem_flatten.1 hm
          obtain ⟨px, hpx, rfl⟩ := List.mem_map.1 hlx
          have hg' : m.group = px.1 := hpure px (List.mem_cons_of_mem _ hpx) m hmlx
          simp only [beq_iff_eq]
          intro hmg
          exact hnd.1 (List.mem_map.2 ⟨px, hpx, by rw [← hg', hmg, hk]⟩)
        rw [h1, h2, List.append_nil]
      · rw [if_neg hk]
        have h1 : lm.filter (fun m => m.group == g) = [] :=
          List.filter_eq_nil_iff.2 (fun m hm => by
            have := hpure (k, lm) (List.mem_cons_self _ _) m hm
            simp only [beq_iff_eq]
            rw [this]
            exact hk)
        rw [h1, List.nil_append]
        exact ih (fun p hp => hpure p (List.mem_cons_of_mem _ hp)) hnd.2

theorem pendingAll_disjoint {entries : List HistoryEntry} {ms : List Migration} :
    ∀ m ∈ pendingAll entries ms, ∀ e ∈ entries,
      ¬(e.group = m.group ∧ e.version = m.version) := by
  intro m hm e he hc
  rw [pendingAll, List.mem_filter] at hm
  have hnone := Option.isNone_iff_eq_none.1 hm.2
  exact (List.find?_eq_none.1 hnone e he) (keyMatches_iff.2 ⟨hc.1.symm, hc.2.symm⟩)

theorem distinctKeys_symm {a b : Migration} (h : distinctKeys a b) : distinctKeys b a :=
  fun hc => h ⟨hc.1.symm, hc.2.symm⟩

theorem pendingAll_pairwise {entries : List HistoryEntry} {ms : List Migration}
    (h : ms.Pairwise distinctKeys) : (pendingAll entries ms).Pairwise distinctKeys :=
  List.Pairwise.sublist (List.filter_sublist ms) h

theorem runList_perm {entries : List HistoryEntry} {ms : List Migration}
    {gs : List (String × List Migration)}
    {reorder : List (String × List Migration) → List (String × List Migration)}
    (hperm : ∀ l, (reorder l).Perm l)
    (hbg : buildGroups entries ms [] = .ok gs) :
    (((reorder (gs.map sortGroup)).map Prod.snd).flatten).Perm (pendingAll entries ms) := by
  have h1 : (((reorder (gs.map sortGroup)).map Prod.snd).flatten).Perm
      (((gs.map sortGroup).map Prod.snd).flatten) := ((hperm _).map _).flatten
  have h4 := (buildGroups_ok_props hbg).1
  exact h1.trans ((map_sortGroup_flatten_perm gs).trans (by simpa using h4))

theorem Apply_eq_run {db : DBModel}
    {reorder : List (String × List Migration) → List (String × List Migration)}
    {ms : List Migration} {t : DBType} {gs : List (String × List Migration)}
    (ht : version db.versionBanner = some t)
    (hdirty : db.history.find? (fun e => e.status != "success") = none)
    (hbg : buildGroups db.history ms [] = .ok gs)
    (hchk : checkGroups (reorder (gs.map sortGroup)) = none) :
    Apply db reorder ms =
      runPending db.execStmt db.history [] []
        (((reorder (gs.map sortGroup)).map Prod.snd).flatten) := by
  simp only [Apply, ht, hdirty, hbg, hchk]

theorem Apply_reaches_run {db : DBModel}
    {reorder : List (String × List Migration) → List (String × List Migration)}
    {ms : List Migration}
    (h : (Apply db reorder ms).err = none ∨
      ∃ g v msg, (Apply db reorder ms).err = some (.executionFailed g v msg)) :
    ∃ t gs, version db.versionBanner = some t ∧
      db.history.find? (fun e => e.status != "success") = none ∧
      buildGroups db.history ms [] = .ok gs ∧
      checkGroups (reorder (gs.map sortGroup)) = none := by
  cases ht : version db.versionBanner with
  | none =>
    exfalso
    have herr : (Apply db reorder ms).err = some (.unknownDatabaseType db.versionBanner) := by
      simp only [Apply, ht]
    rcases h with h | ⟨g, v, msg, h⟩ <;> rw [herr] at h
    · cases h
    · injection h with h'; cases h'
  | some t =>
    cases hdirty : db.history.find? (fun e => e.status != "success") with
    | some e =>
      exfalso
      have herr : (Apply db reorder ms).err = some (.dirtyHistory e) := by
        simp only [Apply, ht, hdirty]
      rcases h with h | ⟨g, v, msg, h⟩ <;> rw [herr] at h
      · cases h
      · injection h with h'; cases h'
    | none =>
      cases hbg : buildGroups db.history ms [] with
      | error er =>
        exfalso
        obtain ⟨e, m, rfl⟩ := buildGroups_error_form hbg
        have herr : (Apply db reorder ms).err = some (.modifiedMigration e m) := by
          simp only [Apply, ht, hdirty, hbg]
        rcases h with h | ⟨g, v, msg, h⟩ <;> rw [herr] at h
        · cases h
        · injection h with h'; cases h'
      | ok gs =>
        cases hchk : checkGroups (reorder (gs.map sortGroup)) with
        | some m =>
          exfalso
          have herr : (Apply db reorder ms).err = some (.invalidVersion m) := by
            simp only [Apply, ht, hdirty, hbg, hchk]
          rcases h with h | ⟨g, v, msg, h⟩ <;> rw [herr] at h
          · cases h
          · injection h with h'; cases h'
        | none => exact ⟨t, gs, rfl, rfl, rfl, hchk⟩

theorem string_append_x_ne (s : String) : s ++ "x" ≠ s := by
  intro h
  have hl := congrArg String.length h
  rw [String.length_append, show ("x" : String).length = 1 from rfl] at hl
  omega

/-- C4 (amended): when the dialect is detected, every history entry has
status success and history identities are distinct (as the primary key
guarantees), a supplied migration whose identity matches a history row
but whose recomputed checksum differs makes `Apply` return the
modified-migration (drift) error with no history row inserted and no
statement executed. -/
theorem apply_drift_blocks (db : DBModel)
    (reorder : List (String × List Migration) → List (String × List Migration))
    (ms : List Migration) (m : Migration) (e : HistoryEntry)
    (hdet : (version db.versionBanner).isSome)
    (hall : ∀ x ∈ db.history, x.status = "success")
    (hek : db.history.Pairwise distinctEntryKeys)
    (hm : m ∈ ms) (he : e ∈ db.history) (hg : e.group = m.group)
    (hv : e.version = m.version) (hc : e.checksum ≠ hash m) :
    ∃ e' m', (Apply db reorder ms).err = some (.modifiedMigration e' m') ∧
      (Apply db reorder ms).history = db.history ∧
      (Apply db reorder ms).started = [] ∧ (Apply db reorder ms).executed = [] := by
  obtain ⟨t, ht⟩ := Option.isSome_iff_exists.1 hdet
  have hdirty := find?_dirty_none hall
  obtain ⟨e', m', hbg⟩ := buildGroups_drift hek he hg hv hc [] hm
  exact ⟨e', m', by simp [Apply, ht, hdirty, hbg], by simp [Apply, ht, hdirty, hbg],
    by simp [Apply, ht, hdirty, hbg], by simp [Apply, ht, hdirty, hbg]⟩

/-- C4 (counterexample): a history holding a drifted success row for the
supplied migration plus an unrelated failed row makes `Apply` return the
dirty-history error, not the drift error the claim demands. -/
theorem apply_drift_preempted_by_dirty :
    driftEntry.status = "success" ∧ driftEntry.group = driftMig.group ∧
    driftEntry.version = driftMig.version ∧ driftEntry.checksum ≠ hash driftMig ∧
    driftEntry ∈ driftDirtyDB.history ∧
    (Apply driftDirtyDB id [driftMig]).err = some (.dirtyHistory otherFailedEntry) ∧
    isDriftError (Apply driftDirtyDB id [driftMig]).err = false := by
  refine ⟨rfl, rfl, rfl, string_append_x_ne _, List.mem_cons_self _ _, ?_, ?_⟩ <;> decide

/-- C4 (witness): the amended statement at a concrete all-success history
whose stored checksum disagrees with the recomputed one. -/
theorem apply_drift_blocks_witness :
    ∃ e' m', (Apply driftCleanDB id [driftMig]).err = some (.modifiedMigration e' m') ∧
      (Apply driftCleanDB id [driftMig]).history = driftCleanDB.history ∧
      (Apply driftCleanDB id [driftMig]).started = [] ∧
      (Apply driftCleanDB id [driftMig]).executed = [] :=
  apply_drift_blocks driftCleanDB id [driftMig] driftMig driftEntry (by decide)
    (fun x hx => by
      rcases List.mem_singleton.1 hx with rfl
      rfl)
    (List.pairwise_singleton _ _)
    (List.mem_singleton.2 rfl) (List.mem_singleton.2 rfl) rfl rfl
    (string_append_x_ne _)

/-- C5 (counterexample): two pending candidates sharing identity (g, 3)
slip past the broken uniqueness check; the first completes (its
statement `s1` executes), but when the second fails its failed-status
update matches both rows of key (g, 3), so the earlier success row does
not remain `success`. -/
theorem apply_failure_overwrites_earlier_success :
    (Apply dupFailDB id dupVersionMigrations).executed = ["s1", "s2"] ∧
    (Apply dupFailDB id dupVersionMigrations).err =
      some (.executionFailed "g" 3 "failed to execute statement s2: syntax error") ∧
    (Apply dupFailDB id dupVersionMigrations).history.map (fun e => e.status) =
      ["failed", "failed"] := by
  refine ⟨?_, ?_, ?_⟩ <;> decide

/-- C5 (amended): provided the supplied migrations have pairwise distinct
(group, version) identities, a statement failure makes `Apply` stop at
the failing migration: its row is updated to failed with the error text
as log, an error naming it is returned, no later migration of any group
is started, and the rows of migrations completed earlier in the call
keep status success. -/
theorem apply_statement_failure_aborts (db : DBModel)
    (reorder : List (String × List Migration) → List (String × List Migration))
    (ms : List Migration) (g : String) (v : Int) (msg : String)
    (hperm : ∀ l, (reorder l).Perm l)
    (hkeys : ms.Pairwise distinctKeys)
    (herr : (Apply db reorder ms).err = some (.executionFailed g v msg)) :
    ∃ pre mf done,
      (Apply db reorder ms).started = pre ++ [mf] ∧
      mf.group = g ∧ mf.version = v ∧
      execute db.execStmt mf.statements = (done, some msg) ∧
      (Apply db reorder ms).history =
        db.history ++ pre.map successRowOf ++ [failedRowOf mf msg] ∧
      (Apply db reorder ms).executed =
        (pre.map (fun m' => m'.statements)).flatten ++ done := by
  obtain ⟨t, gs, ht, hdirty, hbg, hchk⟩ := Apply_reaches_run (Or.inr ⟨g, v, msg, herr⟩)
  have heq := Apply_eq_run ht hdirty hbg hchk
  have hplist : (((reorder (gs.map sortGroup)).map Prod.snd).flatten).Perm
      (pendingAll db.history ms) := runList_perm hperm hbg
  have hd : ∀ m' ∈ ((reorder (gs.map sortGroup)).map Prod.snd).flatten, ∀ e ∈ db.history,
      ¬(e.group = m'.group ∧ e.version = m'.version) :=
    fun m' hm' => pendingAll_disjoint m' (hplist.mem_iff.1 hm')
  have hpw : (((reorder (gs.map sortGroup)).map Prod.snd).flatten).Pairwise distinctKeys :=
    (List.Perm.pairwise_iff (fun h => distinctKeys_symm h) hplist).2 (pendingAll_pairwise hkeys)
  rw [heq] at herr
  obtain ⟨pre, mf, done, msg', hdecomp, her, hxe, hst, hh, hex⟩ :=
    runPending_fail db.execStmt _ db.history [] [] _ hd hpw herr
  injection her with hg1 hv1 hm1
  refine ⟨pre, mf, done, ?_, hg1.symm, hv1.symm, ?_, ?_, ?_⟩
  · rw [heq, hst]
    simp
  · rw [← hm1] at hxe
    exact hxe
  · rw [heq, hh, ← hm1]
  · rw [heq, hex]
    simp

/-- C5 (witness): the amended statement at a two-migration group whose
second statement fails. -/
theorem apply_statement_failure_aborts_witness :
    ∃ pre mf done,
      (Apply failSecondDB id twoStepMigrations).started = pre ++ [mf] ∧
      mf.group = "g" ∧ mf.version = 2 ∧
      execute failSecondDB.execStmt mf.statements =
        (done, some "failed to execute statement bad: syntax error") ∧
      (Apply failSecondDB id twoStepMigrations).history =
        failSecondDB.history ++ pre.map successRowOf ++
          [failedRowOf mf "failed to execute statement bad: syntax error"] ∧
      (Apply failSecondDB id twoStepMigrations).executed =
        (pre.map (fun m' => m'.statements)).flatten ++ done :=
  apply_statement_failure_aborts failSecondDB id twoStepMigrations "g" 2
    "failed to execute statement bad: syntax error" (fun l => List.Perm.refl l)
    (by decide) (by decide)

/-- C6: whatever order the migrations are supplied in and whatever order
the group map is iterated in, the migrations started for a group carry
non-decreasing versions; and on success the started migrations of group
g are exactly that group's pending candidates sorted by ascending
version. -/
theorem apply_group_order_sorted (db : DBModel)
    (reorder : List (String × List Migration) → List (String × List Migration))
    (ms : List Migration) (g : String)
    (hperm : ∀ l, (reorder l).Perm l) :
    List.Sorted (fun a b : Int => a ≤ b)
      (((Apply db reorder ms).started.filter (fun m => m.group == g)).map
        (fun m => m.version)) ∧
    ((Apply db reorder ms).err = none →
      (Apply db reorder ms).started.filter (fun m => m.group == g) =
        List.insertionSort migLe (pendingOf db.history ms g)) := by
  cases ht : version db.versionBanner with
  | none =>
    have happ : Apply db reorder ms =
        ⟨some (.unknownDatabaseType db.versionBanner), db.history, [], []⟩ := by
      simp [Apply, ht]
    rw [happ]
    exact ⟨by simp, fun h => by simp at h⟩
  | some t =>
    cases hdirty : db.history.find? (fun e => e.status != "success") with
    | some e =>
      have happ : Apply db reorder ms = ⟨some (.dirtyHistory e), db.history, [], []⟩ := by
        simp [Apply, ht, hdirty]
      rw [happ]
      exact ⟨by simp, fun h => by simp at h⟩
    | none =>
      cases hbg : buildGroups db.history ms [] with
      | error er =>
        have happ : Apply db reorder ms = ⟨some er, db.history, [], []⟩ := by
          simp [Apply, ht, hdirty, hbg]
        rw [happ]
        exact ⟨by simp, fun h => by simp at h⟩
      | ok gs =>
        cases hchk : checkGroups (reorder (gs.map sortGroup)) with
        | some m =>
          have happ : Apply db reorder ms = ⟨some (.invalidVersion m), db.history, [], []⟩ := by
            simp [Apply, ht, hdirty, hbg, hchk]
          rw [happ]
          exact ⟨by simp, fun h => by simp at h⟩
        | none =>
          have heq := Apply_eq_run ht hdirty hbg hchk
          have hpure0 := (buildGroups_ok_props hbg).2.1 (by intro p hp; simp at hp)
          have hnd0 := (buildGroups_ok_props hbg).2.2.1 (by simp)
          have hget := (buildGroups_ok_props hbg).2.2.2 g
          have hpure2 : ∀ p ∈ reorder (gs.map sortGroup), ∀ m' ∈ p.2, m'.group = p.1 :=
            fun p hp => sortGroup_pure hpure0 p ((hperm _).mem_iff.1 hp)
          have hnd1 : ((gs.map sortGroup).map Prod.fst).Nodup := by
            rw [map_sortGroup_fst]; exact hnd0
          have hnd2 : ((reorder (gs.map sortGroup)).map Prod.fst).Nodup :=
            ((hperm _).map Prod.fst).nodup_iff.2 hnd1
          have hfilter : (((reorder (gs.map sortGroup)).map Prod.snd).flatten).filter
              (fun m => m.group == g) =
              List.insertionSort migLe (pendingOf db.history ms g) := by
            rw [flatten_filter_group g hpure2 hnd2, perm_get (hperm _) hnd1 g,
              sortGroup_get, hget, groupGetList_nil, List.nil_append]
          constructor
          · obtain ⟨tl, hst, hsub⟩ :=
              runPending_started_decomp db.execStmt
                (((reorder (gs.map sortGroup)).map Prod.snd).flatten) db.history [] []
            rw [heq, hst, List.nil_append]
            have hsubf := hsub.filter (fun m => m.group == g)
            rw [hfilter] at hsubf
            have hs2 : List.Sorted migLe (tl.filter (fun m => m.group == g)) :=
              List.Pairwise.sublist hsubf (List.sorted_insertionSort migLe _)
            exact List.Pairwise.map _ (fun a b hab => hab) hs2
          · intro hok
            rw [heq] at hok ⊢
            rw [runPending_ok_started db.execStmt _ _ _ _ hok, List.nil_append]
            exact hfilter

/-- C6 (witness): supplying versions [3, 1] in group g executes them in
order [1, 3]. -/
theorem apply_group_order_sorted_witness :
    List.Sorted (fun a b : Int => a ≤ b)
      (((Apply freshPostgresDB id outOfOrderMigrations).started.filter
        (fun m => m.group == "g")).map (fun m => m.version)) ∧
    ((Apply freshPostgresDB id outOfOrderMigrations).err = none →
      (Apply freshPostgresDB id outOfOrderMigrations).started.filter
        (fun m => m.group == "g") =
        List.insertionSort migLe (pendingOf freshPostgresDB.history outOfOrderMigrations "g")) :=
  apply_group_order_sorted freshPostgresDB id outOfOrderMigrations "g"
    (fun l => List.Perm.refl l)

theorem buildGroups_all_applied {entries : List HistoryEntry} :
    ∀ {ms : List Migration} {gs₀ : List (String × List Migration)},
      (∀ m ∈ ms, ∃ e, entries.find? (keyMatches m) = some e ∧
        (hash m != e.checksum) = false) →
      buildGroups entries ms gs₀ = .ok gs₀ := by
  intro ms
  induction ms with
  | nil => intro gs₀ _; rfl
  | cons m rest ih =>
    intro gs₀ h
    obtain ⟨e, hf, hb⟩ := h m (List.mem_cons_self m rest)
    rw [buildGroups_cons_some hf, if_neg (by simp [hb])]
    exact ih (fun m' hm' => h m' (List.mem_cons_of_mem _ hm'))

/-- C7 (amended): provided the supplied migrations have pairwise distinct
(group, version) identities, a second `Apply` call with the same set
after a successful first call executes nothing, inserts no rows, and
returns nil — every migration is skipped as already applied. -/
theorem apply_idempotent (db : DBModel)
    (reorder reorder2 : List (String × List Migration) → List (String × List Migration))
    (ms : List Migration)
    (hperm : ∀ l, (reorder l).Perm l) (hperm2 : ∀ l, (reorder2 l).Perm l)
    (hkeys : ms.Pairwise distinctKeys)
    (h1 : (Apply db reorder ms).err = none) :
    (Apply (afterDB db reorder ms) reorder2 ms).err = none ∧
    (Apply (afterDB db reorder ms) reorder2 ms).history = (afterDB db reorder ms).history ∧
    (Apply (afterDB db reorder ms) reorder2 ms).started = [] ∧
    (Apply (afterDB db reorder ms) reorder2 ms).executed = [] := by
  obtain ⟨t, gs, ht, hdirty, hbg, hchk⟩ := Apply_reaches_run (Or.inl h1)
  have heq := Apply_eq_run ht hdirty hbg hchk
  have hplist : (((reorder (gs.map sortGroup)).map Prod.snd).flatten).Perm
      (pendingAll db.history ms) := runList_perm hperm hbg
  have hd : ∀ m' ∈ ((reorder (gs.map sortGroup)).map Prod.snd).flatten, ∀ e ∈ db.history,
      ¬(e.group = m'.group ∧ e.version = m'.version) :=
    fun m' hm' => pendingAll_disjoint m' (hplist.mem_iff.1 hm')
  have hpw : (((reorder (gs.map sortGroup)).map Prod.snd).flatten).Pairwise distinctKeys :=
    (List.Perm.pairwise_iff (fun h => distinctKeys_symm h) hplist).2 (pendingAll_pairwise hkeys)
  rw [heq] at h1
  have hhist := runPending_ok_history db.execStmt _ db.history [] [] hd hpw h1
  have hist2 : (afterDB db reorder ms).history =
      db.history ++
        (((reorder (gs.map sortGroup)).map Prod.snd).flatten).map successRowOf := by
    show (Apply db reorder ms).history = _
    rw [heq, hhist]
  have hall2 : ∀ e ∈ (afterDB db reorder ms).history, e.status = "success" := by
    rw [hist2]
    intro e he
    rcases List.mem_append.1 he with he' | he'
    · have := List.find?_eq_none.1 hdirty e he'
      simpa using this
    · obtain ⟨m', _, rfl⟩ := List.mem_map.1 he'
      rfl
  have hdirty2 : (afterDB db reorder ms).history.find? (fun e => e.status != "success") =
      none := find?_dirty_none hall2
  have happlied : ∀ m ∈ ms, ∃ e,
      (afterDB db reorder ms).history.find? (keyMatches m) = some e ∧
      (hash m != e.checksum) = false := by
    intro m hm
    rw [hist2]
    cases hf : db.history.find? (keyMatches m) with
    | some e =>
      refine ⟨e, ?_, ?_⟩
      · rw [List.find?_append, hf]
        rfl
      · simp [buildGroups_ok_checksum hbg m hm e hf]
    | none =>
      have hmp : m ∈ pendingAll db.history ms := by
        rw [pendingAll, List.mem_filter]
        exact ⟨hm, by simp [hf]⟩
      have hmr : m ∈ ((reorder (gs.map sortGroup)).map Prod.snd).flatten :=
        hplist.mem_iff.2 hmp
      rw [List.find?_append, hf, Option.none_or]
      have hex : ∃ x ∈ (((reorder (gs.map sortGroup)).map Prod.snd).flatten).map successRowOf,
          keyMatches m x = true :=
        ⟨successRowOf m, List.mem_map.2 ⟨m, hmr, rfl⟩, keyMatches_iff.2 ⟨rfl, rfl⟩⟩
      obtain ⟨e, hfe⟩ := Option.isSome_iff_exists.1 (List.find?_isSome.2 hex)
      have hpe := keyMatches_iff.1 (List.find?_some hfe)
      obtain ⟨m'', hm'', rfl⟩ := List.mem_map.1 (List.mem_of_find?_eq_some hfe)
      have : m'' = m := mig_mem_key_unique hpw hm'' hmr hpe.1.symm hpe.2.symm
      subst this
      exact ⟨successRowOf m'', hfe, by simp [successRowOf]⟩
  have hbg2 : buildGroups (afterDB db reorder ms).history ms [] = .ok [] :=
    buildGroups_all_applied happlied
  have hr2nil : reorder2 ([] : List (String × List Migration)) = [] := (hperm2 []).eq_nil
  have hchk2 : checkGroups (reorder2 (([] : List (String × List Migration)).map sortGroup)) =
      none := by
    rw [List.map_nil, hr2nil]
    rfl
  have hdet2 : version (afterDB db reorder ms).versionBanner = some t := ht
  have heq2 := Apply_eq_run hdet2 hdirty2 hbg2 hchk2
  rw [List.map_nil, hr2nil] at heq2
  rw [heq2, show (List.map Prod.snd ([] : List (String × List Migration))).flatten =
    ([] : List Migration) from rfl, runPending_nil]
  exact ⟨rfl, rfl, rfl, rfl⟩

set_option maxRecDepth 40000 in
/-- C7 (counterexample): duplicate-version migrations pass the broken
uniqueness check, so the first call succeeds and records two rows with
the same key but different checksums; the second call with the same set
then fails with a drift error instead of returning nil. -/
theorem apply_not_idempotent_with_duplicates :
    (Apply freshPostgresDB id dupVersionMigrations).err = none ∧
    (Apply dupAppliedDB id dupVersionMigrations).err ≠ none ∧
    isDriftError (Apply dupAppliedDB id dupVersionMigrations).err = true := by
  refine ⟨?_, ?_, ?_⟩ <;> decide

/-- C7 (witness): the amended statement at a concrete single-migration
set. -/
theorem apply_idempotent_witness :
    (Apply (afterDB freshPostgresDB id [driftMig]) id [driftMig]).err = none ∧
    (Apply (afterDB freshPostgresDB id [driftMig]) id [driftMig]).history =
      (afterDB freshPostgresDB id [driftMig]).history ∧
    (Apply (afterDB freshPostgresDB id [driftMig]) id [driftMig]).started = [] ∧
    (Apply (afterDB freshPostgresDB id [driftMig]) id [driftMig]).executed = [] :=
  apply_idempotent freshPostgresDB id id [driftMig] (fun l => List.Perm.refl l)
    (fun l => List.Perm.refl l) (by decide) (by decide)

end Sqlm
